import Mathlib

/-!
Verification of the waterfall layout engine, dimension resolver and shuffle
of the image-gallery application (source: `src/pages/Index.tsx`).

The TypeScript code is shallowly embedded: pixel quantities are integers,
aspect ratios are exact rationals, `Math.round x` is `⌊x + 1/2⌋`,
`Math.floor` of a quotient is `Int.floor` of the rational quotient, and
array mutation becomes explicit state passing over `List ℤ`.
-/

namespace Gallery

/-- Embeds the `ImageFile` record (identity and metadata captured at import). -/
structure ImageFile where
  id : String
  name : String
  size : ℤ
  dateModified : ℤ
deriving DecidableEq

/-- Embeds `ImageWithDimensions`: an `ImageFile` plus natural dimensions and
`naturalWidth / naturalHeight` as an exact rational. -/
structure ImageWithDimensions extends ImageFile where
  width : ℤ
  height : ℤ
  aspectRatio : ℚ
deriving DecidableEq

/-- Embeds `PositionedImage`: layout output fields of `calculateWaterfallLayout`. -/
structure PositionedImage extends ImageWithDimensions where
  column : ℕ
  top : ℤ
  calculatedHeight : ℤ
  calculatedWidth : ℤ
deriving DecidableEq

def dummyFile : ImageFile := ⟨"", "", 0, 0⟩

def dummyImage : ImageWithDimensions := ⟨dummyFile, 0, 0, 1⟩

def dummyPositioned : PositionedImage := ⟨dummyImage, 0, 0, 0, 0⟩

/-- The rational aspect ratio of a dimensioned image. -/
def ratioOf (im : ImageWithDimensions) : ℚ :=
  ImageWithDimensions.aspectRatio im

/-- JavaScript `Math.round`: round half toward positive infinity. -/
def jsRound (q : ℚ) : ℤ := ⌊q + 1 / 2⌋

/-- `Math.min(...l)` for a nonempty integer list (0 on the empty list,
which the code never hits with `columnCount ≥ 1`). -/
def minList : List ℤ → ℤ
  | [] => 0
  | [a] => a
  | a :: b :: t => min a (minList (b :: t))

/-- `Math.max(...l)` for a nonempty integer list. -/
def maxList : List ℤ → ℤ
  | [] => 0
  | [a] => a
  | a :: b :: t => max a (maxList (b :: t))

/-- `l.indexOf(Math.min(...l))`: index of the first occurrence of the minimum. -/
def idxMin : List ℤ → ℕ
  | [] => 0
  | [_] => 0
  | a :: b :: t => if a ≤ minList (b :: t) then 0 else idxMin (b :: t) + 1

/-- The hard-coded `gap = 16` of `calculateWaterfallLayout`. -/
def gap : ℤ := 16

/-- `availableWidth = containerMaxWidth - gap * (columnCount - 1)`. -/
def availableWidthOf (containerMaxWidth : ℤ) (columnCount : ℕ) : ℤ :=
  containerMaxWidth - gap * ((columnCount : ℤ) - 1)

/-- `imageWidth = Math.floor(availableWidth / columnCount)`. -/
def imageWidthOf (containerMaxWidth : ℤ) (columnCount : ℕ) : ℤ :=
  ⌊(availableWidthOf containerMaxWidth columnCount : ℚ) / (columnCount : ℚ)⌋

/-- `calculatedHeight = Math.round(imageWidth / image.aspectRatio)`. -/
def heightFor (imageWidth : ℤ) (im : ImageWithDimensions) : ℤ :=
  jsRound ((imageWidth : ℚ) / ratioOf im)

/-- The `images.map` body of `calculateWaterfallLayout`: place each image on the
currently shortest column, threading the `columnHeights` accumulator. -/
def placeAux (imageWidth : ℤ) : List ImageWithDimensions → List ℤ → List PositionedImage
  | [], _ => []
  | im :: rest, heights =>
    let c := idxMin heights
    let t := heights.getD c 0
    let h := heightFor imageWidth im
    ⟨im, c, t, h, imageWidth⟩ :: placeAux imageWidth rest (heights.set c (t + h + gap))

/-- Embeds `calculateWaterfallLayout(images, columnCount)` with the container
width (computed in the source from the viewport) passed as a parameter. -/
def calculateWaterfallLayout (images : List ImageWithDimensions) (columnCount : ℕ)
    (containerMaxWidth : ℤ) : List PositionedImage :=
  if images.isEmpty then []
  else placeAux (imageWidthOf containerMaxWidth columnCount) images
    (List.replicate columnCount 0)

/-- The `containerMaxWidth` computation: `innerWidth - 32` in fullscreen,
otherwise `min(innerWidth - 32, 1280)`. -/
def computeContainerMaxWidth (isFullscreen : Bool) (innerWidth : ℤ) : ℤ :=
  if isFullscreen then innerWidth - 32 else min (innerWidth - 32) 1280

/-- Layout as called by the component: container width derived from the
fullscreen flag and the viewport width. -/
def layoutFromViewport (images : List ImageWithDimensions) (columnCount : ℕ)
    (isFullscreen : Bool) (innerWidth : ℤ) : List PositionedImage :=
  calculateWaterfallLayout images columnCount
    (computeContainerMaxWidth isFullscreen innerWidth)

/-- The `columnHeights` accumulator after placing a list of images. -/
def finalHeightsAux (imageWidth : ℤ) : List ImageWithDimensions → List ℤ → List ℤ
  | [], heights => heights
  | im :: rest, heights =>
    let c := idxMin heights
    finalHeightsAux imageWidth rest
      (heights.set c (heights.getD c 0 + heightFor imageWidth im + gap))

/-- One step of the `containerHeight` fold: raise the per-column running
maximum of `top + calculatedHeight` when the new value exceeds it. -/
def heightStep (hs : List ℤ) (p : PositionedImage) : List ℤ :=
  let nh := PositionedImage.top p + PositionedImage.calculatedHeight p
  if hs.getD (PositionedImage.column p) 0 < nh
  then hs.set (PositionedImage.column p) nh else hs

/-- Embeds the `containerHeight` memo: 0 when empty, otherwise the maximum
over columns of the largest `top + calculatedHeight` in that column. -/
def containerHeight (positioned : List PositionedImage) (columnCount : ℕ) : ℤ :=
  if positioned.isEmpty then 0
  else maxList (positioned.foldl heightStep (List.replicate columnCount 0))

/-- Embeds the `containerWidth` memo, including the `|| 300` fallback when the
first image's `calculatedWidth` is falsy (zero). -/
def containerWidth (positioned : List PositionedImage) (columnCount : ℕ) : ℤ :=
  if positioned.isEmpty then 0
  else
    let w0 := match positioned.head? with
      | some p => PositionedImage.calculatedWidth p
      | none => 300
    let w := if w0 = 0 then 300 else w0
    w * (columnCount : ℤ) + gap * ((columnCount : ℤ) - 1)

/-- Outcome of the browser image decode in `loadImageDimensions`. -/
inductive DecodeOutcome where
  | ok (naturalWidth naturalHeight : ℤ)
  | failed
deriving DecidableEq

/-- Embeds `loadImageDimensions`: on decode success the natural dimensions and
their ratio, on failure the 300×200 fallback with ratio `1.5`. -/
def loadImageDimensions (f : ImageFile) (outcome : DecodeOutcome) : ImageWithDimensions :=
  match outcome with
  | .ok w h => ⟨f, w, h, (w : ℚ) / (h : ℚ)⟩
  | .failed => ⟨f, 300, 200, 1.5⟩

/-- The destructuring swap `[a[i], a[j]] = [a[j], a[i]]` on a list. -/
def swapL {α : Type} (l : List α) (i j : ℕ) : List α :=
  match l.get? i, l.get? j with
  | some x, some y => (l.set i y).set j x
  | _, _ => l

/-- The Fisher–Yates loop of `shuffleImages`, counting `i` down to 1; the
oracle `r i` stands for `Math.floor(Math.random() * (i + 1))`. -/
def shuffleAux (r : ℕ → ℕ) : ℕ → List ImageFile → List ImageFile
  | 0, l => l
  | i + 1, l => shuffleAux r i (swapL l (i + 1) (r (i + 1)))

/-- Embeds `shuffleImages` on the current image list. -/
def shuffleImages (r : ℕ → ℕ) (l : List ImageFile) : List ImageFile :=
  shuffleAux r (l.length - 1) l

/-- The geometric content of a positioned image: column, offset and size. -/
def geom (p : PositionedImage) : ℕ × ℤ × ℤ × ℤ :=
  (PositionedImage.column p, PositionedImage.top p,
    PositionedImage.calculatedHeight p, PositionedImage.calculatedWidth p)

/-- Greedy column assignment from rendered heights alone (the placement rule
of `calculateWaterfallLayout` stripped of everything but the heights). -/
def assignAux : List ℤ → List ℤ → List ℕ
  | [], _ => []
  | h :: rest, acc =>
    let c := idxMin acc
    c :: assignAux rest (acc.set c (acc.getD c 0 + h + gap))

/-- Column assignments computed from the list of rendered heights. -/
def assignColumns (renderedHeights : List ℤ) (columnCount : ℕ) : List ℕ :=
  assignAux renderedHeights (List.replicate columnCount 0)

/-- A dimensioned image as produced by a successful decode, used in examples. -/
def exImage (nm : String) (w h : ℤ) : ImageWithDimensions :=
  loadImageDimensions ⟨nm, nm, 0, 0⟩ (DecodeOutcome.ok w h)

/-- The spec's worked example: three images with aspect ratios 2.0, 1.0, 1.0. -/
def exSpec : List ImageWithDimensions :=
  [exImage "a" 600 300, exImage "b" 400 400, exImage "c" 500 500]

/-- Images whose rounded heights reorder when the container width doubles. -/
def exScale : List ImageWithDimensions :=
  [exImage "a" 30800 10051, exImage "b" 30800 10049, exImage "c" 400 400]

/-- The column-height accumulator just before the `i`-th image is placed. -/
def heightsBefore (images : List ImageWithDimensions) (k : ℕ) (W : ℤ) (i : ℕ) : List ℤ :=
  finalHeightsAux (imageWidthOf W k) (images.take i) (List.replicate k 0)

/-! ### Lemmas about `minList`, `maxList` and `idxMin` -/

theorem minList_le (l : List ℤ) : ∀ x ∈ l, minList l ≤ x := by
  induction l with
  | nil => simp
  | cons a t ih =>
    cases t with
    | nil => simp [minList]
    | cons b t' =>
      intro x hx
      rcases List.mem_cons.mp hx with rfl | hx'
      · exact min_le_left _ _
      · exact le_trans (min_le_right _ _) (ih x hx')

theorem minList_mem (l : List ℤ) (h : l ≠ []) : minList l ∈ l := by
  induction l with
  | nil => simp at h
  | cons a t ih =>
    cases t with
    | nil => simp [minList]
    | cons b t' =>
      rcases le_total a (minList (b :: t')) with hle | hle
      · simp [minList, min_eq_left hle]
      · have : minList (a :: b :: t') = minList (b :: t') := min_eq_right hle
        rw [this]
        exact List.mem_cons_of_mem a (ih (by simp))

theorem le_maxList (l : List ℤ) : ∀ x ∈ l, x ≤ maxList l := by
  induction l with
  | nil => simp
  | cons a t ih =>
    cases t with
    | nil => simp [maxList]
    | cons b t' =>
      intro x hx
      rcases List.mem_cons.mp hx with rfl | hx'
      · exact le_max_left _ _
      · exact le_trans (ih x hx') (le_max_right _ _)

theorem maxList_mem (l : List ℤ) (h : l ≠ []) : maxList l ∈ l := by
  induction l with
  | nil => simp at h
  | cons a t ih =>
    cases t with
    | nil => simp [maxList]
    | cons b t' =>
      rcases le_total (maxList (b :: t')) a with hle | hle
      · simp [maxList, max_eq_left hle]
      · have : maxList (a :: b :: t') = maxList (b :: t') := max_eq_right hle
        rw [this]
        exact List.mem_cons_of_mem a (ih (by simp))

theorem idxMin_lt_length (l : List ℤ) (h : l ≠ []) : idxMin l < l.length := by
  induction l with
  | nil => simp at h
  | cons a t ih =>
    cases t with
    | nil => simp [idxMin]
    | cons b t' =>
      by_cases hle : a ≤ minList (b :: t')
      · simp [idxMin, hle]
      · simp only [idxMin, hle, if_false, List.length_cons]
        exact Nat.succ_lt_succ (ih (by simp))

theorem getD_idxMin (l : List ℤ) (h : l ≠ []) : l.getD (idxMin l) 0 = minList l := by
  induction l with
  | nil => simp at h
  | cons a t ih =>
    cases t with
    | nil => simp [idxMin, minList]
    | cons b t' =>
      by_cases hle : a ≤ minList (b :: t')
      · simp [idxMin, hle, minList, min_eq_left hle]
      · have h1 : minList (a :: b :: t') = minList (b :: t') :=
          min_eq_right (le_of_lt (lt_of_not_le hle))

        simp only [idxMin, hle, if_false, h1, List.getD_cons_succ]
        exact ih (by simp)

theorem minList_lt_of_lt_idxMin (l : List ℤ) (i : ℕ) (h : i < idxMin l) :
    minList l < l.getD i 0 := by
  induction l generalizing i with
  | nil => simp [idxMin] at h
  | cons a t ih =>
    cases t with
    | nil => simp [idxMin] at h
    | cons b t' =>
      by_cases hle : a ≤ minList (b :: t')
      · simp [idxMin, hle] at h
      · have h1 : minList (a :: b :: t') = minList (b :: t') :=
          min_eq_right (le_of_lt (lt_of_not_le hle))
        simp only [idxMin, hle, if_false] at h
        cases i with
        | zero =>
          simpa [h1] using lt_of_not_le hle
        | succ j =>
          rw [h1, List.getD_cons_succ]
          exact ih j (Nat.lt_of_succ_lt_succ h)

theorem minList_le_getD (l : List ℤ) (i : ℕ) (h : i < l.length) :
    minList l ≤ l.getD i 0 := by
  have : l.getD i 0 = l.get ⟨i, h⟩ := by
    simp [List.getD_eq_getElem?_getD, List.getElem?_eq_getElem h]
  rw [this]
  exact minList_le l _ (List.get_mem l i h)

theorem le_maxList_getD (l : List ℤ) (i : ℕ) (h : i < l.length) :
    l.getD i 0 ≤ maxList l := by
  have : l.getD i 0 = l.get ⟨i, h⟩ := by
    simp [List.getD_eq_getElem?_getD, List.getElem?_eq_getElem h]
  rw [this]
  exact le_maxList l _ (List.get_mem l i h)

/-! ### Structural lemmas about `placeAux` and `finalHeightsAux` -/

theorem finalHeightsAux_length (w : ℤ) (images : List ImageWithDimensions) (hs : List ℤ) :
    (finalHeightsAux w images hs).length = hs.length := by
  induction images generalizing hs with
  | nil => simp [finalHeightsAux]
  | cons im rest ih => simp [finalHeightsAux, ih]

theorem finalHeightsAux_append (w : ℤ) (l1 l2 : List ImageWithDimensions) (hs : List ℤ) :
    finalHeightsAux w (l1 ++ l2) hs = finalHeightsAux w l2 (finalHeightsAux w l1 hs) := by
  induction l1 generalizing hs with
  | nil => simp [finalHeightsAux]
  | cons im rest ih => simp [finalHeightsAux, ih]

theorem placeAux_length (w : ℤ) (images : List ImageWithDimensions) (hs : List ℤ) :
    (placeAux w images hs).length = images.length := by
  induction images generalizing hs with
  | nil => simp [placeAux]
  | cons im rest ih => simp [placeAux, ih]

theorem placeAux_map_image (w : ℤ) (images : List ImageWithDimensions) (hs : List ℤ) :
    (placeAux w images hs).map (fun p => PositionedImage.toImageWithDimensions p) = images := by
  induction images generalizing hs with
  | nil => simp [placeAux]
  | cons im rest ih => simp [placeAux, ih]

theorem placeAux_columns (w : ℤ) (images : List ImageWithDimensions) (hs : List ℤ) :
    (placeAux w images hs).map (fun p => PositionedImage.column p)
      = assignAux (images.map (heightFor w)) hs := by
  induction images generalizing hs with
  | nil => simp [placeAux, assignAux]
  | cons im rest ih => simp [placeAux, assignAux, ih]

theorem placeAux_width_mem (w : ℤ) (images : List ImageWithDimensions) (hs : List ℤ) :
    ∀ p ∈ placeAux w images hs, PositionedImage.calculatedWidth p = w := by
  induction images generalizing hs with
  | nil => simp [placeAux]
  | cons im rest ih =>
    intro p hp
    rcases List.mem_cons.mp hp with rfl | hp'
    · rfl
    · exact ih _ p hp'

theorem placeAux_column_lt (w : ℤ) (images : List ImageWithDimensions) (hs : List ℤ)
    (hne : hs ≠ []) : ∀ p ∈ placeAux w images hs, PositionedImage.column p < hs.length := by
  induction images generalizing hs with
  | nil => simp [placeAux]
  | cons im rest ih =>
    intro p hp
    rcases List.mem_cons.mp hp with rfl | hp'
    · exact idxMin_lt_length hs hne
    · have h1 := ih (hs.set (idxMin hs)
        (hs.getD (idxMin hs) 0 + heightFor w im + gap)) (by simpa using hne) p hp'
      simpa using h1

theorem placeAux_get? (w : ℤ) (images : List ImageWithDimensions) (hs : List ℤ) (i : ℕ) :
    (placeAux w images hs).get? i = (images.get? i).map (fun im =>
      ⟨im, idxMin (finalHeightsAux w (images.take i) hs),
        (finalHeightsAux w (images.take i) hs).getD
          (idxMin (finalHeightsAux w (images.take i) hs)) 0,
        heightFor w im, w⟩) := by
  induction images generalizing hs i with
  | nil => simp [placeAux]
  | cons im rest ih =>
    cases i with
    | zero => simp [placeAux, finalHeightsAux]
    | succ j =>
      simp only [placeAux, List.get?_cons_succ, List.take_succ_cons, finalHeightsAux]
      exact ih _ j

/-! ### Effects of `List.set` on `getD`, `minList` and `maxList` -/

theorem getD_set_self (l : List ℤ) (i : ℕ) (v : ℤ) (h : i < l.length) :
    (l.set i v).getD i 0 = v := by
  simp [List.getD_eq_getElem?_getD, List.getElem?_set_self h]

theorem getD_set_ne (l : List ℤ) (i c : ℕ) (v : ℤ) (h : i ≠ c) :
    (l.set i v).getD c 0 = l.getD c 0 := by
  simp [List.getD_eq_getElem?_getD, List.getElem?_set_ne h]

theorem getD_set_le (l : List ℤ) (i c : ℕ) (v : ℤ) (hv : l.getD i 0 ≤ v) :
    l.getD c 0 ≤ (l.set i v).getD c 0 := by
  by_cases hc : c = i
  · subst hc
    by_cases hlen : c < l.length
    · rw [getD_set_self l c v hlen]
      exact hv
    · rw [List.set_eq_of_length_le (Nat.le_of_not_lt hlen)]
  · rw [getD_set_ne l i c v (fun he => hc he.symm)]

theorem maxList_set_le (l : List ℤ) (i : ℕ) (v : ℤ) (hne : l ≠ []) :
    maxList (l.set i v) ≤ max (maxList l) v := by
  have hne' : l.set i v ≠ [] := by simp [hne]
  have hmem := maxList_mem (l.set i v) hne'
  rcases List.mem_or_eq_of_mem_set hmem with h | h
  · exact le_max_of_le_left (le_maxList l _ h)
  · exact le_max_of_le_right (le_of_eq h)

theorem min_le_minList_set (l : List ℤ) (i : ℕ) (v : ℤ) (hne : l ≠ []) :
    min (minList l) v ≤ minList (l.set i v) := by
  have hne' : l.set i v ≠ [] := by simp [hne]
  have hmem := minList_mem (l.set i v) hne'
  rcases List.mem_or_eq_of_mem_set hmem with h | h
  · exact le_trans (min_le_left _ _) (minList_le l _ h)
  · exact le_trans (min_le_right _ _) (le_of_eq h.symm)

theorem le_maxList_set (l : List ℤ) (i : ℕ) (v : ℤ) (hv : l.getD i 0 ≤ v) :
    maxList l ≤ maxList (l.set i v) := by
  rcases eq_or_ne l [] with rfl | hne
  · simp
  have hmem := maxList_mem l hne
  rcases List.mem_iff_getElem.mp hmem with ⟨c, hc, hval⟩
  have h1 : l.getD c 0 = maxList l := by
    simp [List.getD_eq_getElem?_getD, List.getElem?_eq_getElem hc, hval]
  have h2 : l.getD c 0 ≤ (l.set i v).getD c 0 := getD_set_le l i c v hv
  have h3 : (l.set i v).getD c 0 ≤ maxList (l.set i v) :=
    le_maxList_getD _ c (by simpa using hc)
  omega

/-! ### Sign of rendered heights -/

theorem heightFor_nonneg (w : ℤ) (im : ImageWithDimensions) (hw : 0 ≤ w)
    (hr : 0 < ratioOf im) : 0 ≤ heightFor w im := by
  unfold heightFor jsRound
  have h1 : (0 : ℚ) ≤ (w : ℚ) / ratioOf im :=
    div_nonneg (by exact_mod_cast hw) (le_of_lt hr)
  have h2 : (0 : ℚ) ≤ (w : ℚ) / ratioOf im + 1 / 2 := by linarith
  exact Int.le_floor.mpr (by exact_mod_cast h2)

/-! ### Tops dominate the running column accumulators -/

theorem placeAux_top_ge (w : ℤ) (images : List ImageWithDimensions) (hs : List ℤ)
    (hh : ∀ im ∈ images, 0 ≤ heightFor w im) :
    ∀ p ∈ placeAux w images hs,
      hs.getD (PositionedImage.column p) 0 ≤ PositionedImage.top p := by
  induction images generalizing hs with
  | nil => simp [placeAux]
  | cons im rest ih =>
    intro p hp
    rcases List.mem_cons.mp hp with rfl | hp'
    · exact le_refl _
    · have hstep := ih (hs.set (idxMin hs) (hs.getD (idxMin hs) 0 + heightFor w im + gap))
        (fun x hx => hh x (List.mem_cons_of_mem _ hx)) p hp'
      refine le_trans ?_ hstep
      refine getD_set_le hs (idxMin hs) (PositionedImage.column p) _ ?_
      have him : 0 ≤ heightFor w im := hh im (List.mem_cons_self _ _)
      have : (0 : ℤ) < gap := by norm_num [gap]
      omega

theorem placeAux_pairwise (w : ℤ) (images : List ImageWithDimensions) (hs : List ℤ)
    (hne : hs ≠ []) (hh : ∀ im ∈ images, 0 ≤ heightFor w im) :
    List.Pairwise (fun p q => PositionedImage.column p = PositionedImage.column q →
      PositionedImage.top p + PositionedImage.calculatedHeight p + gap
        ≤ PositionedImage.top q) (placeAux w images hs) := by
  induction images generalizing hs with
  | nil => simp [placeAux]
  | cons im rest ih =>
    simp only [placeAux]
    refine List.Pairwise.cons ?_
      (ih _ (by simp [hne]) (fun x hx => hh x (List.mem_cons_of_mem _ hx)))
    intro q hq hcol
    have h1 := placeAux_top_ge w rest
      (hs.set (idxMin hs) (hs.getD (idxMin hs) 0 + heightFor w im + gap))
      (fun x hx => hh x (List.mem_cons_of_mem _ hx)) q hq
    have h2 : (hs.set (idxMin hs) (hs.getD (idxMin hs) 0 + heightFor w im + gap)).getD
        (PositionedImage.column q) 0
        = hs.getD (idxMin hs) 0 + heightFor w im + gap := by
      have hcol' : PositionedImage.column q = idxMin hs := by
        simpa using hcol.symm
      rw [hcol']
      exact getD_set_self hs (idxMin hs) _ (idxMin_lt_length hs hne)
    rw [h2] at h1
    simpa using h1

/-! ### The greedy balance bound -/

theorem maxList_cons_of_nonneg (a : ℤ) (t : List ℤ) (ha : 0 ≤ a) :
    maxList (a :: t) = max a (maxList t) := by
  cases t with
  | nil => simp [maxList, max_eq_left ha]
  | cons b t' => rfl

theorem minList_replicate_zero (k : ℕ) : minList (List.replicate (k + 1) 0) = 0 := by
  induction k with
  | zero => simp [minList]
  | succ j ih =>
    rw [List.replicate_succ]
    rw [List.replicate_succ] at ih ⊢
    rw [show minList (0 :: 0 :: List.replicate j 0)
        = min 0 (minList (0 :: List.replicate j 0)) from rfl, ih]
    simp

theorem maxList_replicate_zero (k : ℕ) : maxList (List.replicate (k + 1) 0) = 0 := by
  induction k with
  | zero => simp [maxList]
  | succ j ih =>
    rw [List.replicate_succ]
    rw [List.replicate_succ] at ih ⊢
    rw [show maxList (0 :: 0 :: List.replicate j 0)
        = max 0 (maxList (0 :: List.replicate j 0)) from rfl, ih]
    simp

theorem spread_le (w : ℤ) (images : List ImageWithDimensions) :
    ∀ hs : List ℤ, hs ≠ [] → (∀ im ∈ images, 0 ≤ heightFor w im) →
    maxList (finalHeightsAux w images hs) - minList (finalHeightsAux w images hs)
      ≤ max (maxList hs - minList hs)
          (maxList (images.map (fun im => heightFor w im + gap))) := by
  induction images with
  | nil =>
    intro hs _ _
    exact le_max_left _ _
  | cons im rest ih =>
    intro hs hne hh
    have hgap : (0 : ℤ) < gap := by norm_num [gap]
    have him : 0 ≤ heightFor w im := hh im (List.mem_cons_self _ _)
    have hmin : hs.getD (idxMin hs) 0 = minList hs := getD_idxMin hs hne
    have hv : minList hs ≤ hs.getD (idxMin hs) 0 + heightFor w im + gap := by omega
    have hminset : minList hs
        ≤ minList (hs.set (idxMin hs) (hs.getD (idxMin hs) 0 + heightFor w im + gap)) := by
      have h1 := min_le_minList_set hs (idxMin hs)
        (hs.getD (idxMin hs) 0 + heightFor w im + gap) hne
      rw [min_eq_left hv] at h1
      exact h1
    have hmaxset : maxList (hs.set (idxMin hs) (hs.getD (idxMin hs) 0 + heightFor w im + gap))
        ≤ max (maxList hs) (hs.getD (idxMin hs) 0 + heightFor w im + gap) :=
      maxList_set_le hs (idxMin hs) _ hne
    have hspread : maxList (hs.set (idxMin hs) (hs.getD (idxMin hs) 0 + heightFor w im + gap))
          - minList (hs.set (idxMin hs) (hs.getD (idxMin hs) 0 + heightFor w im + gap))
        ≤ max (maxList hs - minList hs) (heightFor w im + gap) := by
      rcases le_total (hs.getD (idxMin hs) 0 + heightFor w im + gap) (maxList hs) with h4 | h4
      · rw [max_eq_left h4] at hmaxset
        have := le_max_left (maxList hs - minList hs) (heightFor w im + gap)
        omega
      · rw [max_eq_right h4] at hmaxset
        have := le_max_right (maxList hs - minList hs) (heightFor w im + gap)
        omega
    have hstep := ih (hs.set (idxMin hs) (hs.getD (idxMin hs) 0 + heightFor w im + gap))
      (by simp [hne]) (fun x hx => hh x (List.mem_cons_of_mem _ hx))
    have hmapcons : maxList ((im :: rest).map (fun x => heightFor w x + gap))
        = max (heightFor w im + gap) (maxList (rest.map (fun x => heightFor w x + gap))) := by
      rw [List.map_cons]
      exact maxList_cons_of_nonneg _ _ (by omega)
    rw [show finalHeightsAux w (im :: rest) hs
        = finalHeightsAux w rest
            (hs.set (idxMin hs) (hs.getD (idxMin hs) 0 + heightFor w im + gap)) from rfl,
      hmapcons]
    refine le_trans hstep (max_le ?_ ?_)
    · refine le_trans hspread (max_le ?_ ?_)
      · exact le_max_left _ _
      · exact le_max_of_le_right (le_max_left _ _)
    · exact le_max_of_le_right (le_max_right _ _)

/-! ### Relating the `containerHeight` fold to the placement accumulators -/

theorem heightStep_length (m : List ℤ) (p : PositionedImage) :
    (heightStep m p).length = m.length := by
  show (if m.getD (PositionedImage.column p) 0
      < PositionedImage.top p + PositionedImage.calculatedHeight p
    then m.set (PositionedImage.column p)
      (PositionedImage.top p + PositionedImage.calculatedHeight p)
    else m).length = m.length
  by_cases h : m.getD (PositionedImage.column p) 0
      < PositionedImage.top p + PositionedImage.calculatedHeight p
  · rw [if_pos h, List.length_set]
  · rw [if_neg h]

theorem getD_replicate_zero (k c : ℕ) : (List.replicate k (0 : ℤ)).getD c 0 = 0 := by
  simp [List.getD_eq_getElem?_getD, List.getElem?_replicate]
  split <;> simp

theorem foldl_heightStep_inv (w : ℤ) (images : List ImageWithDimensions) :
    ∀ acc m : List ℤ,
      m.length = acc.length →
      acc ≠ [] →
      (∀ im ∈ images, 0 ≤ heightFor w im) →
      (∀ c, c < acc.length → 0 ≤ acc.getD c 0) →
      (∀ c, c < acc.length → m.getD c 0 = max (acc.getD c 0 - gap) 0) →
      ((placeAux w images acc).foldl heightStep m).length = acc.length ∧
      ∀ c, c < acc.length →
        ((placeAux w images acc).foldl heightStep m).getD c 0
          = max ((finalHeightsAux w images acc).getD c 0 - gap) 0 := by
  induction images with
  | nil =>
    intro acc m hlen hne hh hnn hinv
    exact ⟨hlen, hinv⟩
  | cons im rest ih =>
    intro acc m hlen hne hh hnn hinv
    have hgap : (0 : ℤ) < gap := by norm_num [gap]
    have hclt : idxMin acc < acc.length := idxMin_lt_length acc hne
    have ht : 0 ≤ acc.getD (idxMin acc) 0 := hnn _ hclt
    have him : 0 ≤ heightFor w im := hh im (List.mem_cons_self _ _)
    have hmc : m.getD (idxMin acc) 0 = max (acc.getD (idxMin acc) 0 - gap) 0 := hinv _ hclt
    have hunfold : placeAux w (im :: rest) acc
        = (⟨im, idxMin acc, acc.getD (idxMin acc) 0, heightFor w im, w⟩ : PositionedImage)
          :: placeAux w rest (acc.set (idxMin acc)
              (acc.getD (idxMin acc) 0 + heightFor w im + gap)) := rfl
    have hm' : heightStep m ⟨im, idxMin acc, acc.getD (idxMin acc) 0, heightFor w im, w⟩
        = if m.getD (idxMin acc) 0 < acc.getD (idxMin acc) 0 + heightFor w im
          then m.set (idxMin acc) (acc.getD (idxMin acc) 0 + heightFor w im) else m := rfl
    have hlen' : (heightStep m
          ⟨im, idxMin acc, acc.getD (idxMin acc) 0, heightFor w im, w⟩).length
        = (acc.set (idxMin acc)
            (acc.getD (idxMin acc) 0 + heightFor w im + gap)).length := by
      rw [heightStep_length, List.length_set, hlen]
    have hnn' : ∀ c, c < (acc.set (idxMin acc)
          (acc.getD (idxMin acc) 0 + heightFor w im + gap)).length →
        0 ≤ (acc.set (idxMin acc)
          (acc.getD (idxMin acc) 0 + heightFor w im + gap)).getD c 0 := by
      intro c hc
      have hc' : c < acc.length := by simpa using hc
      by_cases hceq : c = idxMin acc
      · subst hceq
        rw [getD_set_self acc _ _ hclt]
        omega
      · rw [getD_set_ne acc _ _ _ (fun he => hceq he.symm)]
        exact hnn c hc'
    have hinv' : ∀ c, c < (acc.set (idxMin acc)
          (acc.getD (idxMin acc) 0 + heightFor w im + gap)).length →
        (heightStep m
            ⟨im, idxMin acc, acc.getD (idxMin acc) 0, heightFor w im, w⟩).getD c 0
          = max ((acc.set (idxMin acc)
              (acc.getD (idxMin acc) 0 + heightFor w im + gap)).getD c 0 - gap) 0 := by
      intro c hc
      have hc' : c < acc.length := by simpa using hc
      have hcm : c < m.length := by omega
      by_cases hceq : c = idxMin acc
      · subst hceq
        rw [getD_set_self acc _ _ hclt, hm']
        by_cases hcond : m.getD (idxMin acc) 0
            < acc.getD (idxMin acc) 0 + heightFor w im
        · rw [if_pos hcond, getD_set_self m _ _ hcm,
            max_eq_left (show (0 : ℤ) ≤ acc.getD (idxMin acc) 0 + heightFor w im + gap - gap
              by omega)]
          omega
        · rw [if_neg hcond]
          have hcond2 : acc.getD (idxMin acc) 0 + heightFor w im
              ≤ m.getD (idxMin acc) 0 := not_lt.mp hcond
          rw [hmc] at hcond2 ⊢
          rcases le_total (acc.getD (idxMin acc) 0 - gap) 0 with h5 | h5
          · rw [max_eq_right h5] at hcond2 ⊢
            rw [max_eq_right (by omega)]
          · rw [max_eq_left h5] at hcond2
            omega
      · have hne2 : idxMin acc ≠ c := fun he => hceq he.symm
        rw [getD_set_ne acc _ _ _ hne2, hm']
        have hmck : (if m.getD (idxMin acc) 0
              < acc.getD (idxMin acc) 0 + heightFor w im
            then m.set (idxMin acc) (acc.getD (idxMin acc) 0 + heightFor w im)
            else m).getD c 0 = m.getD c 0 := by
          split
          · exact getD_set_ne m _ _ _ hne2
          · rfl
        rw [hmck]
        exact hinv c hc'
    obtain ⟨hL, hP⟩ := ih (acc.set (idxMin acc)
        (acc.getD (idxMin acc) 0 + heightFor w im + gap))
      (heightStep m ⟨im, idxMin acc, acc.getD (idxMin acc) 0, heightFor w im, w⟩)
      hlen' (by simp [hne]) (fun x hx => hh x (List.mem_cons_of_mem _ hx)) hnn' hinv'
    constructor
    · rw [hunfold, List.foldl_cons]
      rw [hL, List.length_set]
    · intro c hc
      rw [hunfold, List.foldl_cons,
        show finalHeightsAux w (im :: rest) acc = finalHeightsAux w rest
          (acc.set (idxMin acc)
            (acc.getD (idxMin acc) 0 + heightFor w im + gap)) from rfl]
      exact hP c (by simpa using hc)

theorem maxList_pointwise_max_sub (l1 l2 : List ℤ) (g : ℤ) (hlen : l1.length = l2.length)
    (hne : l1 ≠ [])
    (h : ∀ c, c < l1.length → l1.getD c 0 = max (l2.getD c 0 - g) 0) :
    maxList l1 = max (maxList l2 - g) 0 := by
  have hne2 : l2 ≠ [] := by
    intro h2
    subst h2
    exact hne (List.length_eq_zero.mp hlen)
  apply le_antisymm
  · obtain ⟨c, hc, hval⟩ := List.mem_iff_getElem.mp (maxList_mem l1 hne)
    have hgd : l1.getD c 0 = maxList l1 := by
      simp [List.getD_eq_getElem?_getD, List.getElem?_eq_getElem hc, hval]
    rw [← hgd, h c hc]
    have hle : l2.getD c 0 ≤ maxList l2 := le_maxList_getD l2 c (by omega)
    exact max_le_max (by omega) le_rfl
  · obtain ⟨c, hc, hval⟩ := List.mem_iff_getElem.mp (maxList_mem l2 hne2)
    have hgd : l2.getD c 0 = maxList l2 := by
      simp [List.getD_eq_getElem?_getD, List.getElem?_eq_getElem hc, hval]
    have hc1 : c < l1.length := by omega
    have h6 := h c hc1
    rw [hgd] at h6
    rw [← h6]
    exact le_maxList_getD l1 c hc1

theorem maxList_le_finalHeightsAux (w : ℤ) (images : List ImageWithDimensions) :
    ∀ acc : List ℤ, (∀ im ∈ images, 0 ≤ heightFor w im) →
      maxList acc ≤ maxList (finalHeightsAux w images acc) := by
  induction images with
  | nil => intro acc _; exact le_refl _
  | cons im rest ih =>
    intro acc hh
    have hgap : (0 : ℤ) < gap := by norm_num [gap]
    have him : 0 ≤ heightFor w im := hh im (List.mem_cons_self _ _)
    refine le_trans (le_maxList_set acc (idxMin acc)
      (acc.getD (idxMin acc) 0 + heightFor w im + gap) (by omega)) ?_
    exact ih _ (fun x hx => hh x (List.mem_cons_of_mem _ hx))

theorem gap_le_maxList_finalHeightsAux (w : ℤ) (im : ImageWithDimensions)
    (rest : List ImageWithDimensions) (acc : List ℤ) (hne : acc ≠ [])
    (hh : ∀ x ∈ im :: rest, 0 ≤ heightFor w x)
    (hnn : ∀ c, c < acc.length → 0 ≤ acc.getD c 0) :
    gap ≤ maxList (finalHeightsAux w (im :: rest) acc) := by
  have hclt : idxMin acc < acc.length := idxMin_lt_length acc hne
  have ht : 0 ≤ acc.getD (idxMin acc) 0 := hnn _ hclt
  have him : 0 ≤ heightFor w im := hh im (List.mem_cons_self _ _)
  have h1 : gap ≤ (acc.set (idxMin acc)
      (acc.getD (idxMin acc) 0 + heightFor w im + gap)).getD (idxMin acc) 0 := by
    rw [getD_set_self acc _ _ hclt]
    omega
  have h2 : (acc.set (idxMin acc)
      (acc.getD (idxMin acc) 0 + heightFor w im + gap)).getD (idxMin acc) 0
      ≤ maxList (acc.set (idxMin acc)
        (acc.getD (idxMin acc) 0 + heightFor w im + gap)) :=
    le_maxList_getD _ _ (by simpa using hclt)
  have h3 := maxList_le_finalHeightsAux w rest
    (acc.set (idxMin acc) (acc.getD (idxMin acc) 0 + heightFor w im + gap))
    (fun x hx => hh x (List.mem_cons_of_mem _ hx))
  calc gap ≤ _ := h1
    _ ≤ _ := h2
    _ ≤ _ := h3

/-! ### The Fisher–Yates swap is a permutation -/

theorem cons_set_perm {α : Type} (t : List α) (m : ℕ) (a y : α)
    (h : t.get? m = some y) : List.Perm (y :: t.set m a) (a :: t) := by
  induction t generalizing m with
  | nil => simp at h
  | cons b t' ih =>
    cases m with
    | zero =>
      have hb : b = y := by simpa using h
      subst hb
      simpa using List.Perm.swap a b t'
    | succ k =>
      simp only [List.get?_cons_succ] at h
      simp only [List.set_cons_succ]
      exact (List.Perm.swap b y _).trans
        ((List.Perm.cons b (ih k h)).trans (List.Perm.swap a b t'))

theorem swapL_perm {α : Type} (l : List α) (i j : ℕ) : List.Perm (swapL l i j) l := by
  unfold swapL
  split
  next x y hx hy =>
    have hj : (l.set i y).get? j = some y := by
      by_cases hij : i = j
      · subst hij
        rw [List.get?_set_eq, hy]
        rfl
      · rw [List.get?_set_ne _ _ hij, hy]
    have p1 : List.Perm (y :: (l.set i y).set j x) (x :: l.set i y) :=
      cons_set_perm (l.set i y) j x y hj
    have p2 : List.Perm (x :: l.set i y) (y :: l) := cons_set_perm l i y x hx
    exact List.Perm.cons_inv (p1.trans p2)
  next => exact List.Perm.refl l

theorem shuffleAux_perm (r : ℕ → ℕ) :
    ∀ (n : ℕ) (l : List ImageFile), List.Perm (shuffleAux r n l) l := by
  intro n
  induction n with
  | zero => intro l; exact List.Perm.refl l
  | succ i ih =>
    intro l
    exact (ih _).trans (swapL_perm l (i + 1) (r (i + 1)))

/-! ### Helpers for the claims -/

theorem calculateWaterfallLayout_of_ne_nil (images : List ImageWithDimensions) (k : ℕ)
    (W : ℤ) (hne : images ≠ []) :
    calculateWaterfallLayout images k W
      = placeAux (imageWidthOf W k) images (List.replicate k 0) := by
  have hE := List.isEmpty_eq_false.mpr hne
  simp [calculateWaterfallLayout, hE]

theorem replicate_ne_nil_of_pos (k : ℕ) (hk : 1 ≤ k) :
    (List.replicate k (0 : ℤ)) ≠ [] :=
  List.ne_nil_of_length_pos (by simp; omega)

theorem placeAux_geom_congr (w : ℤ) (l1 : List ImageWithDimensions) :
    ∀ (l2 : List ImageWithDimensions) (hs : List ℤ),
      l1.map ratioOf = l2.map ratioOf →
      (placeAux w l1 hs).map geom = (placeAux w l2 hs).map geom := by
  induction l1 with
  | nil =>
    intro l2 hs h
    have h2 : l2 = [] := by simpa using h.symm
    subst h2
    rfl
  | cons a t ih =>
    intro l2 hs h
    cases l2 with
    | nil => simp at h
    | cons b t2 =>
      simp only [List.map_cons, List.cons.injEq] at h
      obtain ⟨hab, ht⟩ := h
      have hfb : heightFor w a = heightFor w b := by
        unfold heightFor
        rw [hab]
      simp only [placeAux, List.map_cons, hfb]
      exact congrArg _ (ih t2 _ ht)

/-! ### The claims -/

/-- C8: laying out the empty image list is not an error: it yields an empty
positioned list, content height 0 and content width 0. -/
theorem layout_empty_input (k : ℕ) (W : ℤ) :
    calculateWaterfallLayout [] k W = [] ∧
    containerHeight (calculateWaterfallLayout [] k W) k = 0 ∧
    containerWidth (calculateWaterfallLayout [] k W) k = 0 := by
  refine ⟨rfl, ?_, ?_⟩
  · simp [calculateWaterfallLayout, containerHeight]
  · simp [calculateWaterfallLayout, containerWidth]

/-- C4: the layout pipeline is deterministic: two calls with equal image
sequences, column counts, fullscreen flags and viewport widths produce
identical positioned sequences; the embedding is a pure function with no
hidden randomness. -/
theorem layout_deterministic (images1 images2 : List ImageWithDimensions)
    (k1 k2 : ℕ) (fs1 fs2 : Bool) (vw1 vw2 : ℤ)
    (hi : images1 = images2) (hk : k1 = k2) (hf : fs1 = fs2) (hv : vw1 = vw2) :
    layoutFromViewport images1 k1 fs1 vw1 = layoutFromViewport images2 k2 fs2 vw2 := by
  subst hi
  subst hk
  subst hf
  subst hv
  rfl

/-- C4 witness: two identical calls on the worked example agree. -/
theorem layout_deterministic_witness :
    exSpec = exSpec ∧ 2 = 2 ∧ false = false ∧ (664 : ℤ) = 664 ∧
    layoutFromViewport exSpec 2 false 664 = layoutFromViewport exSpec 2 false 664 :=
  ⟨rfl, rfl, rfl, rfl, layout_deterministic exSpec exSpec 2 2 false false 664 664
    rfl rfl rfl rfl⟩

/-- C10: the Fisher–Yates shuffle returns a permutation of the input list —
same length, same entries as a multiset, same multiset of ids — for every
draw oracle `r`. -/
theorem shuffleImages_permutation (r : ℕ → ℕ) (l : List ImageFile) :
    (shuffleImages r l).length = l.length ∧
    List.Perm (shuffleImages r l) l ∧
    List.Perm ((shuffleImages r l).map ImageFile.id) (l.map ImageFile.id) := by
  have hp : List.Perm (shuffleImages r l) l := shuffleAux_perm r _ l
  exact ⟨hp.length_eq, hp, hp.map _⟩

/-- C3: for a non-empty input and columnCount in [1,10], the layout has
exactly one entry per input image, preserves the input order, and every
column index is in [0, k). -/
theorem layout_one_entry_per_image (images : List ImageWithDimensions) (k : ℕ) (W : ℤ)
    (hne : images ≠ []) (hk1 : 1 ≤ k) (hk10 : k ≤ 10) :
    (calculateWaterfallLayout images k W).length = images.length ∧
    (calculateWaterfallLayout images k W).map
        (fun p => PositionedImage.toImageWithDimensions p) = images ∧
    ∀ p ∈ calculateWaterfallLayout images k W, PositionedImage.column p < k := by
  rw [calculateWaterfallLayout_of_ne_nil images k W hne]
  refine ⟨placeAux_length _ _ _, placeAux_map_image _ _ _, ?_⟩
  intro p hp
  have h1 := placeAux_column_lt (imageWidthOf W k) images (List.replicate k 0)
    (replicate_ne_nil_of_pos k hk1) p hp
  simpa using h1

/-- C3 witness: the worked example with two columns. -/
theorem layout_one_entry_per_image_witness :
    exSpec ≠ [] ∧ 1 ≤ 2 ∧ 2 ≤ 10 ∧
    ((calculateWaterfallLayout exSpec 2 632).length = exSpec.length ∧
      (calculateWaterfallLayout exSpec 2 632).map
          (fun p => PositionedImage.toImageWithDimensions p) = exSpec ∧
      ∀ p ∈ calculateWaterfallLayout exSpec 2 632, PositionedImage.column p < 2) :=
  ⟨by simp [exSpec], by omega, by omega,
    layout_one_entry_per_image exSpec 2 632 (by simp [exSpec]) (by omega) (by omega)⟩

/-- C7 counterexample: doubling the container width from 632 to 1264 does not
scale the rendered width by 2 (308 becomes 624, not 616) and changes the
column-assignment sequence of `exScale` from [0,1,1] to [0,1,0]. -/
theorem resize_proportionality_counterexample :
    (calculateWaterfallLayout exScale 2 632).map (fun p => PositionedImage.column p)
      = [0, 1, 1] ∧
    (calculateWaterfallLayout exScale 2 1264).map (fun p => PositionedImage.column p)
      = [0, 1, 0] ∧
    imageWidthOf 632 2 = 308 ∧
    imageWidthOf 1264 2 = 624 ∧
    (624 : ℤ) ≠ 2 * 308 := by
  norm_num [exScale, exImage, loadImageDimensions, calculateWaterfallLayout, placeAux,
    idxMin, minList, heightFor, jsRound, ratioOf, imageWidthOf, availableWidthOf, gap,
    List.replicate]

/-- C7 (amended): a container-width change leaves the placement rule itself
unchanged — the column-assignment sequence is a function of the rendered
heights and the column count alone — and the rendered width stays uniform,
equal to floor(availableWidth / columnCount); but neither sizes nor column
assignments scale proportionally in general. -/
theorem layout_columns_determined_by_heights (images : List ImageWithDimensions)
    (k : ℕ) (W : ℤ) :
    (calculateWaterfallLayout images k W).map (fun p => PositionedImage.column p)
      = assignColumns (images.map (heightFor (imageWidthOf W k))) k ∧
    ∀ p ∈ calculateWaterfallLayout images k W,
      PositionedImage.calculatedWidth p = imageWidthOf W k := by
  rcases eq_or_ne images [] with rfl | hne
  · exact ⟨rfl, by simp [calculateWaterfallLayout]⟩
  · rw [calculateWaterfallLayout_of_ne_nil images k W hne]
    exact ⟨placeAux_columns _ _ _, placeAux_width_mem _ _ _⟩

/-- C1 counterexample: on the spec's worked example (columnCount 2, gap 16,
container width 632, aspect ratios 2.0, 1.0, 1.0) the final accumulators are
[494, 324] with maximum 494, yet the reported content height is 478, not
494 — the code's `containerHeight` takes the per-column maximum of
top + renderedHeight, which excludes the trailing gap. -/
theorem contentHeight_trailing_gap_counterexample :
    finalHeightsAux (imageWidthOf 632 2) exSpec (List.replicate 2 0) = [494, 324] ∧
    maxList [494, 324] = 494 ∧
    containerHeight (calculateWaterfallLayout exSpec 2 632) 2 = 478 ∧
    containerHeight (calculateWaterfallLayout exSpec 2 632) 2 ≠ 494 := by
  norm_num [exSpec, exImage, loadImageDimensions, calculateWaterfallLayout, placeAux,
    finalHeightsAux, idxMin, minList, maxList, heightFor, jsRound, ratioOf, imageWidthOf,
    availableWidthOf, gap, heightStep, containerHeight, List.replicate]

/-- C1 (amended): for a non-empty input the reported content height equals
the maximum of the final column-height accumulators MINUS the trailing gap
(the gap added after the last image of each column is not part of the
reported height); on the worked example this is 494 - 16 = 478. -/
theorem contentHeight_eq_max_minus_gap (images : List ImageWithDimensions) (k : ℕ) (W : ℤ)
    (hne : images ≠ []) (hk : 1 ≤ k)
    (hr : ∀ im ∈ images, 0 < ratioOf im)
    (hw : 0 ≤ imageWidthOf W k) :
    containerHeight (calculateWaterfallLayout images k W) k
      = maxList (finalHeightsAux (imageWidthOf W k) images (List.replicate k 0)) - gap := by
  obtain ⟨im, rest, rfl⟩ := List.exists_cons_of_ne_nil hne
  have hh : ∀ x ∈ im :: rest, 0 ≤ heightFor (imageWidthOf W k) x :=
    fun x hx => heightFor_nonneg _ x hw (hr x hx)
  have hrep : (List.replicate k (0 : ℤ)) ≠ [] := replicate_ne_nil_of_pos k hk
  have hlenrep : (List.replicate k (0 : ℤ)).length = k := List.length_replicate k 0
  rw [calculateWaterfallLayout_of_ne_nil _ k W (by simp)]
  have hpl : placeAux (imageWidthOf W k) (im :: rest) (List.replicate k 0) ≠ [] := by
    simp [placeAux]
  have hE := List.isEmpty_eq_false.mpr hpl
  have hch : containerHeight (placeAux (imageWidthOf W k) (im :: rest)
        (List.replicate k 0)) k
      = maxList ((placeAux (imageWidthOf W k) (im :: rest)
          (List.replicate k 0)).foldl heightStep (List.replicate k 0)) := by
    simp [containerHeight, hE]
  rw [hch]
  obtain ⟨hL1, hP⟩ := foldl_heightStep_inv (imageWidthOf W k) (im :: rest)
    (List.replicate k 0) (List.replicate k 0) rfl hrep hh
    (fun c _ => by rw [getD_replicate_zero])
    (fun c _ => by
      rw [getD_replicate_zero,
        max_eq_right (show (0 : ℤ) - gap ≤ 0 by norm_num [gap])])
  have hlen1 : ((placeAux (imageWidthOf W k) (im :: rest)
        (List.replicate k 0)).foldl heightStep (List.replicate k 0)).length
      = (finalHeightsAux (imageWidthOf W k) (im :: rest) (List.replicate k 0)).length := by
    rw [hL1, finalHeightsAux_length]
  have hne1 : (placeAux (imageWidthOf W k) (im :: rest)
        (List.replicate k 0)).foldl heightStep (List.replicate k 0) ≠ [] := by
    refine List.ne_nil_of_length_pos ?_
    rw [hL1, hlenrep]
    omega
  have hpoint : ∀ c, c < ((placeAux (imageWidthOf W k) (im :: rest)
        (List.replicate k 0)).foldl heightStep (List.replicate k 0)).length →
      ((placeAux (imageWidthOf W k) (im :: rest)
          (List.replicate k 0)).foldl heightStep (List.replicate k 0)).getD c 0
        = max ((finalHeightsAux (imageWidthOf W k) (im :: rest)
            (List.replicate k 0)).getD c 0 - gap) 0 := by
    intro c hc
    rw [hL1] at hc
    exact hP c hc
  rw [maxList_pointwise_max_sub _ _ gap hlen1 hne1 hpoint]
  have hge : gap ≤ maxList (finalHeightsAux (imageWidthOf W k) (im :: rest)
      (List.replicate k 0)) :=
    gap_le_maxList_finalHeightsAux (imageWidthOf W k) im rest (List.replicate k 0)
      hrep hh (fun c _ => by rw [getD_replicate_zero])
  rw [max_eq_left (by omega)]

/-- C1 witness: the amended statement instantiated on the worked example. -/
theorem contentHeight_eq_max_minus_gap_witness :
    exSpec ≠ [] ∧ 1 ≤ 2 ∧ (∀ im ∈ exSpec, 0 < ratioOf im) ∧ 0 ≤ imageWidthOf 632 2 ∧
    containerHeight (calculateWaterfallLayout exSpec 2 632) 2
      = maxList (finalHeightsAux (imageWidthOf 632 2) exSpec (List.replicate 2 0)) - gap :=
  ⟨by simp [exSpec], by omega,
    by
      intro im him
      simp only [exSpec, List.mem_cons, List.mem_singleton] at him
      rcases him with rfl | rfl | rfl | h
      · norm_num [ratioOf, exImage, loadImageDimensions]
      · norm_num [ratioOf, exImage, loadImageDimensions]
      · norm_num [ratioOf, exImage, loadImageDimensions]
      · simp at h,
    by norm_num [imageWidthOf, availableWidthOf, gap],
    contentHeight_eq_max_minus_gap exSpec 2 632 (by simp [exSpec]) (by omega)
      (by
        intro im him
        simp only [exSpec, List.mem_cons, List.mem_singleton] at him
        rcases him with rfl | rfl | rfl | h
        · norm_num [ratioOf, exImage, loadImageDimensions]
        · norm_num [ratioOf, exImage, loadImageDimensions]
        · norm_num [ratioOf, exImage, loadImageDimensions]
        · simp at h)
      (by norm_num [imageWidthOf, availableWidthOf, gap])⟩

/-- All aspect ratios of the worked example are positive. -/
theorem exSpec_ratios_pos : ∀ im ∈ exSpec, 0 < ratioOf im := by
  intro im him
  simp only [exSpec, List.mem_cons, List.mem_singleton] at him
  rcases him with rfl | rfl | rfl | h
  · norm_num [ratioOf, exImage, loadImageDimensions]
  · norm_num [ratioOf, exImage, loadImageDimensions]
  · norm_num [ratioOf, exImage, loadImageDimensions]
  · simp at h

theorem imageWidth_632_2_nonneg : 0 ≤ imageWidthOf 632 2 := by
  norm_num [imageWidthOf, availableWidthOf, gap]

/-- C5: after full placement the spread between the tallest and shortest
column accumulator is bounded by the largest single renderedHeight + gap
placed during the pass. -/
theorem column_height_balance (images : List ImageWithDimensions) (k : ℕ) (W : ℤ)
    (hk : 1 ≤ k) (hr : ∀ im ∈ images, 0 < ratioOf im) (hw : 0 ≤ imageWidthOf W k) :
    maxList (finalHeightsAux (imageWidthOf W k) images (List.replicate k 0))
      - minList (finalHeightsAux (imageWidthOf W k) images (List.replicate k 0))
      ≤ maxList (images.map (fun im => heightFor (imageWidthOf W k) im + gap)) := by
  have hh : ∀ x ∈ images, 0 ≤ heightFor (imageWidthOf W k) x :=
    fun x hx => heightFor_nonneg _ x hw (hr x hx)
  obtain ⟨j, rfl⟩ : ∃ j, k = j + 1 := ⟨k - 1, by omega⟩
  rcases eq_or_ne images [] with rfl | hne
  · rw [show finalHeightsAux (imageWidthOf W (j + 1)) [] (List.replicate (j + 1) 0)
        = List.replicate (j + 1) 0 from rfl, minList_replicate_zero j,
      maxList_replicate_zero j]
    simp [maxList]
  · have h1 := spread_le (imageWidthOf W (j + 1)) images (List.replicate (j + 1) 0)
      (replicate_ne_nil_of_pos _ (by omega)) hh
    rw [minList_replicate_zero j, maxList_replicate_zero j] at h1
    obtain ⟨im, rest, rfl⟩ := List.exists_cons_of_ne_nil hne
    have him : 0 ≤ heightFor (imageWidthOf W (j + 1)) im := hh im (List.mem_cons_self _ _)
    have hgap : (0 : ℤ) < gap := by norm_num [gap]
    have hM : (0 : ℤ) ≤ maxList ((im :: rest).map
        (fun x => heightFor (imageWidthOf W (j + 1)) x + gap)) := by
      refine le_trans (show (0 : ℤ) ≤ heightFor (imageWidthOf W (j + 1)) im + gap
        by omega) ?_
      exact le_maxList _ _ (List.mem_map_of_mem _ (List.mem_cons_self _ _))
    have h2 : max ((0 : ℤ) - 0) (maxList ((im :: rest).map
        (fun x => heightFor (imageWidthOf W (j + 1)) x + gap)))
        = maxList ((im :: rest).map
          (fun x => heightFor (imageWidthOf W (j + 1)) x + gap)) :=
      max_eq_right (by omega)
    rw [h2] at h1
    exact h1

/-- C5 witness: the balance bound instantiated on the worked example. -/
theorem column_height_balance_witness :
    1 ≤ 2 ∧ (∀ im ∈ exSpec, 0 < ratioOf im) ∧ 0 ≤ imageWidthOf 632 2 ∧
    maxList (finalHeightsAux (imageWidthOf 632 2) exSpec (List.replicate 2 0))
      - minList (finalHeightsAux (imageWidthOf 632 2) exSpec (List.replicate 2 0))
      ≤ maxList (exSpec.map (fun im => heightFor (imageWidthOf 632 2) im + gap)) :=
  ⟨by omega, exSpec_ratios_pos, imageWidth_632_2_nonneg,
    column_height_balance exSpec 2 632 (by omega) exSpec_ratios_pos
      imageWidth_632_2_nonneg⟩

/-- C6: no two images in the same column overlap: if p precedes q in the
layout output and both share a column, q's top is at least p's top plus p's
rendered height plus the gap. -/
theorem layout_no_overlap (images : List ImageWithDimensions) (k : ℕ) (W : ℤ)
    (hk : 1 ≤ k) (hr : ∀ im ∈ images, 0 < ratioOf im) (hw : 0 ≤ imageWidthOf W k) :
    List.Pairwise (fun p q => PositionedImage.column p = PositionedImage.column q →
      PositionedImage.top p + PositionedImage.calculatedHeight p + gap
        ≤ PositionedImage.top q) (calculateWaterfallLayout images k W) := by
  rcases eq_or_ne images [] with rfl | hne
  · simp [calculateWaterfallLayout]
  · rw [calculateWaterfallLayout_of_ne_nil images k W hne]
    exact placeAux_pairwise _ images _ (replicate_ne_nil_of_pos k hk)
      (fun x hx => heightFor_nonneg _ x hw (hr x hx))

/-- C6 witness: the no-overlap property instantiated on the worked example. -/
theorem layout_no_overlap_witness :
    1 ≤ 2 ∧ (∀ im ∈ exSpec, 0 < ratioOf im) ∧ 0 ≤ imageWidthOf 632 2 ∧
    List.Pairwise (fun p q => PositionedImage.column p = PositionedImage.column q →
      PositionedImage.top p + PositionedImage.calculatedHeight p + gap
        ≤ PositionedImage.top q) (calculateWaterfallLayout exSpec 2 632) :=
  ⟨by omega, exSpec_ratios_pos, imageWidth_632_2_nonneg,
    layout_no_overlap exSpec 2 632 (by omega) exSpec_ratios_pos imageWidth_632_2_nonneg⟩

/-- C2: the i-th placed image goes to the column whose accumulated height is
minimal (ties to the lowest index: all strictly smaller indices have strictly
greater accumulators), with the uniform floored width, height rounded from
width / aspectRatio, top equal to the accumulator before placement, and the
chosen accumulator then bumped by renderedHeight + gap. -/
theorem greedy_placement_characterization (images : List ImageWithDimensions) (k : ℕ)
    (W : ℤ) (i : ℕ) (hi : i < images.length) (hk : 1 ≤ k) :
    ∃ p, (calculateWaterfallLayout images k W).get? i = some p ∧
      PositionedImage.toImageWithDimensions p = images.getD i dummyImage ∧
      PositionedImage.column p < k ∧
      (∀ c, c < k → (heightsBefore images k W i).getD (PositionedImage.column p) 0
          ≤ (heightsBefore images k W i).getD c 0) ∧
      (∀ c, c < PositionedImage.column p →
        (heightsBefore images k W i).getD (PositionedImage.column p) 0
          < (heightsBefore images k W i).getD c 0) ∧
      PositionedImage.calculatedWidth p = imageWidthOf W k ∧
      PositionedImage.calculatedHeight p
        = jsRound ((imageWidthOf W k : ℚ) / ratioOf (images.getD i dummyImage)) ∧
      PositionedImage.top p
        = (heightsBefore images k W i).getD (PositionedImage.column p) 0 ∧
      heightsBefore images k W (i + 1)
        = (heightsBefore images k W i).set (PositionedImage.column p)
            ((heightsBefore images k W i).getD (PositionedImage.column p) 0
              + PositionedImage.calculatedHeight p + gap) := by
  have hne : images ≠ [] := by
    intro h
    subst h
    simp at hi
  have hgd : images.getD i dummyImage = images[i] := by
    simp [List.getD_eq_getElem?_getD, List.getElem?_eq_getElem hi]
  have accLen : (heightsBefore images k W i).length = k := by
    rw [heightsBefore, finalHeightsAux_length, List.length_replicate]
  have accNe : heightsBefore images k W i ≠ [] := by
    refine List.ne_nil_of_length_pos ?_
    rw [accLen]
    omega
  have hsome : images.get? i = some images[i] := by
    simp [List.getElem?_eq_getElem hi]
  have hq := placeAux_get? (imageWidthOf W k) images (List.replicate k 0) i
  rw [hsome] at hq
  rw [calculateWaterfallLayout_of_ne_nil images k W hne]
  refine ⟨⟨images[i], idxMin (heightsBefore images k W i),
    (heightsBefore images k W i).getD (idxMin (heightsBefore images k W i)) 0,
    heightFor (imageWidthOf W k) images[i], imageWidthOf W k⟩, hq, by rw [hgd], ?_,
    ?_, ?_, rfl, ?_, rfl, ?_⟩
  · show idxMin (heightsBefore images k W i) < k
    have h1 := idxMin_lt_length _ accNe
    omega
  · intro c hc
    rw [getD_idxMin _ accNe]
    exact minList_le_getD _ c (by omega)
  · intro c hc
    rw [getD_idxMin _ accNe]
    exact minList_lt_of_lt_idxMin _ c hc
  · rw [hgd]
    rfl
  · rw [heightsBefore, List.take_succ, List.getElem?_eq_getElem hi,
      finalHeightsAux_append]
    rfl

/-- C2 witness: the characterization instantiated at the third image of the
worked example. -/
theorem greedy_placement_characterization_witness :
    2 < exSpec.length ∧ 1 ≤ 2 ∧
    (∃ p, (calculateWaterfallLayout exSpec 2 632).get? 2 = some p ∧
      PositionedImage.toImageWithDimensions p = exSpec.getD 2 dummyImage ∧
      PositionedImage.column p < 2 ∧
      (∀ c, c < 2 → (heightsBefore exSpec 2 632 2).getD (PositionedImage.column p) 0
          ≤ (heightsBefore exSpec 2 632 2).getD c 0) ∧
      (∀ c, c < PositionedImage.column p →
        (heightsBefore exSpec 2 632 2).getD (PositionedImage.column p) 0
          < (heightsBefore exSpec 2 632 2).getD c 0) ∧
      PositionedImage.calculatedWidth p = imageWidthOf 632 2 ∧
      PositionedImage.calculatedHeight p
        = jsRound ((imageWidthOf 632 2 : ℚ) / ratioOf (exSpec.getD 2 dummyImage)) ∧
      PositionedImage.top p
        = (heightsBefore exSpec 2 632 2).getD (PositionedImage.column p) 0 ∧
      heightsBefore exSpec 2 632 3
        = (heightsBefore exSpec 2 632 2).set (PositionedImage.column p)
            ((heightsBefore exSpec 2 632 2).getD (PositionedImage.column p) 0
              + PositionedImage.calculatedHeight p + gap)) :=
  ⟨by simp [exSpec], by omega,
    greedy_placement_characterization exSpec 2 632 2 (by simp [exSpec]) (by omega)⟩

/-- C9: a failed decode resolves to the 300×200 fallback with aspect ratio
1.5 = 3/2, and layout geometry depends only on the aspect-ratio sequence, so
such an asset participates in layout exactly like a decoded image of the
same ratio. -/
theorem decode_failure_fallback (f : ImageFile) (images1 images2 : List ImageWithDimensions)
    (k : ℕ) (W : ℤ) (hmap : images1.map ratioOf = images2.map ratioOf) :
    ImageWithDimensions.width (loadImageDimensions f DecodeOutcome.failed) = 300 ∧
    ImageWithDimensions.height (loadImageDimensions f DecodeOutcome.failed) = 200 ∧
    ratioOf (loadImageDimensions f DecodeOutcome.failed) = 3 / 2 ∧
    (calculateWaterfallLayout images1 k W).map geom
      = (calculateWaterfallLayout images2 k W).map geom := by
  refine ⟨rfl, rfl, by norm_num [ratioOf, loadImageDimensions], ?_⟩
  rcases eq_or_ne images1 [] with rfl | hne
  · have h2 : images2 = [] := by simpa using hmap.symm
    subst h2
    rfl
  · have hne2 : images2 ≠ [] := by
      intro h2
      subst h2
      simp only [List.map_nil, List.map_eq_nil_iff] at hmap
      exact hne hmap
    rw [calculateWaterfallLayout_of_ne_nil images1 k W hne,
      calculateWaterfallLayout_of_ne_nil images2 k W hne2]
    exact placeAux_geom_congr _ images1 images2 _ hmap

/-- C9 witness: a failed decode laid out next to a decoded 450×300 image of
ratio 3/2 produces identical geometry. -/
theorem decode_failure_fallback_witness :
    ([loadImageDimensions ⟨"f", "f", 0, 0⟩ DecodeOutcome.failed].map ratioOf
      = [exImage "g" 450 300].map ratioOf) ∧
    (ImageWithDimensions.width (loadImageDimensions ⟨"f", "f", 0, 0⟩
        DecodeOutcome.failed) = 300 ∧
      ImageWithDimensions.height (loadImageDimensions ⟨"f", "f", 0, 0⟩
        DecodeOutcome.failed) = 200 ∧
      ratioOf (loadImageDimensions ⟨"f", "f", 0, 0⟩ DecodeOutcome.failed) = 3 / 2 ∧
      (calculateWaterfallLayout [loadImageDimensions ⟨"f", "f", 0, 0⟩
          DecodeOutcome.failed] 2 632).map geom
        = (calculateWaterfallLayout [exImage "g" 450 300] 2 632).map geom) :=
  ⟨by norm_num [ratioOf, loadImageDimensions, exImage],
    decode_failure_fallback ⟨"f", "f", 0, 0⟩ _ _ 2 632
      (by norm_num [ratioOf, loadImageDimensions, exImage])⟩

end Gallery
